/-
Verification of the phylogenetic-tree construction core of the
phylogenetic-tree-viewer repository (src/code.py).

The repository code under src/ contains the FASTA upload pipeline
`construct_tree_from_fasta` (src/code.py lines 215-263).  Its own
algorithmic content is the pairwise distance-matrix loop (lines 237-246)
and the staging/error boundary (lines 226-263).  The neighbor-joining
construction, the duplicate-name check and the Newick serialization are
delegated to external library calls (`DistanceMatrix`,
`DistanceTreeConstructor.nj`, `Phylo.write`); those parts are modelled
from the specification (spec.md sections 4.2, 7 and 9), as indicated in
the doc comment of each definition.

Numbers are modelled by ℚ (the Python code computes with floats; the
rational model is exact, so every "within floating-point tolerance"
statement is established exactly).
-/
import Mathlib

/-- A parsed FASTA record: identifier and residue string, as produced by
`SeqIO.parse` at src/code.py line 228 (`rec.id`, `rec.seq`; `len(rec)` is
the length of the residue string). -/
structure FastaRecord where
  id : String
  seq : String
  deriving DecidableEq, Inhabited

/-- Modelled from the spec: the error taxonomy of section 7
(`InsufficientInputError`, `AlignmentError`, `InsufficientTaxaError`,
`DegenerateTreeError`).  The source surfaces these as a warning/early
return (src/code.py lines 229-231) or as exceptions caught at line 262. -/
inductive PipeError where
  | InsufficientInputError
  | AlignmentError
  | InsufficientTaxaError
  | DegenerateTreeError
  deriving DecidableEq

/-- The name list `names = [rec.id for rec in records]`
(src/code.py line 237). -/
def fastaNames (records : List FastaRecord) : List String :=
  records.map FastaRecord.id

/-- A single Python assignment `matrix[i][j] = v` on the square matrix,
modelled as a function update. -/
def setEntry (m : Nat → Nat → ℚ) (i j : Nat) (v : ℚ) : Nat → Nat → ℚ :=
  fun a b => if a = i ∧ b = j then v else m a b

/-- The index pairs visited by the nested loops
`for i in range(n): for j in range(i):` (src/code.py lines 241-242),
in iteration order. -/
def pairList : Nat → List (Nat × Nat)
  | 0 => []
  | n + 1 => pairList n ++ (List.range n).map fun j => (n, j)

/-- One iteration of the loop body at src/code.py lines 243-246:
`score = aligner.score(records[i].seq, records[j].seq)` (the external
aligner, which may fail, per spec section 4.1 `AlignmentError`),
`max_len = max(len(records[i]), len(records[j]))`,
`distance = 1 - (score / max_len)`,
`matrix[i][j] = matrix[j][i] = distance`.
The second state component counts the alignment calls completed so far. -/
def alignPair (records : List FastaRecord)
    (align : String → String → Except PipeError ℚ)
    (st : Except PipeError (Nat → Nat → ℚ) × Nat) (p : Nat × Nat) :
    Except PipeError (Nat → Nat → ℚ) × Nat :=
  match st with
  | (.error e, c) => (.error e, c)
  | (.ok m, c) =>
    let ri := records.getD p.1 default
    let rj := records.getD p.2 default
    match align ri.seq rj.seq with
    | .error e => (.error e, c)
    | .ok score =>
      let distance : ℚ := 1 - score / ((max ri.seq.length rj.seq.length : Nat) : ℚ)
      (.ok (setEntry (setEntry m p.1 p.2 distance) p.2 p.1 distance), c + 1)

/-- The full distance-matrix loop of src/code.py lines 239-246: matrix
initialized to all zeroes, then the nested pair loop. -/
def distanceFold (records : List FastaRecord)
    (align : String → String → Except PipeError ℚ) :
    Except PipeError (Nat → Nat → ℚ) × Nat :=
  (pairList records.length).foldl (alignPair records align) (.ok fun _ _ => 0, 0)

/-- An aligner that always succeeds with the pure score `σ` (the normal
operation of `PairwiseAligner.score` at src/code.py line 243). -/
def okAlign (σ : String → String → ℚ) : String → String → Except PipeError ℚ :=
  fun a b => .ok (σ a b)

/-- The normalized distance of src/code.py line 245 for the record pair
`(i, j)`: `1 - (score / max(len(seq_i), len(seq_j)))`. -/
def pairDistance (records : List FastaRecord) (σ : String → String → ℚ)
    (i j : Nat) : ℚ :=
  let ri := records.getD i default
  let rj := records.getD j default
  1 - σ ri.seq rj.seq / ((max ri.seq.length rj.seq.length : Nat) : ℚ)

/-- The distance matrix computed by the loop under a never-failing
aligner. -/
def fastaDistance (records : List FastaRecord) (σ : String → String → ℚ) :
    Nat → Nat → ℚ :=
  match distanceFold records (okAlign σ) with
  | (.ok m, _) => m
  | (.error _, _) => fun _ _ => 0

mutual
/-- Modelled from the spec (section 9): the tagged-variant tree standing for
the clade objects built by the external `DistanceTreeConstructor.nj` call
(src/code.py line 250).  A node is a named leaf or an unnamed internal node
with an ordered list of child edges. -/
inductive PTree where
  | leaf (name : String) : PTree
  | internal (children : PForest) : PTree
  deriving DecidableEq

/-- An ordered list of child edges, each a subtree with its branch length. -/
inductive PForest where
  | nil : PForest
  | cons (t : PTree) (len : ℚ) (rest : PForest) : PForest
  deriving DecidableEq
end

instance : Inhabited PTree := ⟨.leaf ""⟩

mutual
def PTree.leaves : PTree → List String
  | .leaf a => [a]
  | .internal f => f.leavesF

def PForest.leavesF : PForest → List String
  | .nil => []
  | .cons t _ rest => t.leaves ++ rest.leavesF
end

mutual
def PTree.internalCount : PTree → Nat
  | .leaf _ => 0
  | .internal f => 1 + f.internalCountF

def PForest.internalCountF : PForest → Nat
  | .nil => 0
  | .cons t _ rest => t.internalCount + rest.internalCountF
end

mutual
def PTree.branches : PTree → List ℚ
  | .leaf _ => []
  | .internal f => f.branchesF

def PForest.branchesF : PForest → List ℚ
  | .nil => []
  | .cons t q rest => q :: (t.branches ++ rest.branchesF)
end

mutual
def PTree.size : PTree → Nat
  | .leaf _ => 1
  | .internal f => 1 + f.sizeF

def PForest.sizeF : PForest → Nat
  | .nil => 0
  | .cons t _ rest => 1 + t.size + rest.sizeF
end

/-- Appending one more child edge at the end of a child list. -/
def PForest.snoc : PForest → PTree → ℚ → PForest
  | .nil, t, q => .cons t q .nil
  | .cons t0 q0 rest, t, q => .cons t0 q0 (rest.snoc t q)

/-- Modelled from the spec (section 4.2, step 2a): the net divergence
`r_i`, the sum of the distances from node `i` to every other current
node. -/
def rowSum (d : Nat → Nat → ℚ) (m i : Nat) : ℚ :=
  ((List.range m).map fun j => if j = i then 0 else d i j).sum

/-- Modelled from the spec (section 4.2, step 2b): the selection criterion
`Q(i,j) = (n-2)*d_ij - r_i - r_j`. -/
def qCrit (d : Nat → Nat → ℚ) (m i j : Nat) : ℚ :=
  ((m : ℚ) - 2) * d i j - rowSum d m i - rowSum d m j

/-- Modelled from the spec (section 4.2, step 2b): the fixed deterministic
scan order over index pairs, ascending lexicographic. -/
def lexPairs (m : Nat) : List (Nat × Nat) :=
  (List.range m).flatMap fun i =>
    ((List.range m).filter fun j => i < j).map fun j => (i, j)

/-- First minimizer of `f` in scan order (a later pair replaces the current
best only on a strictly smaller value — the spec's stable tie-break). -/
def selectPair (f : Nat × Nat → ℚ) : List (Nat × Nat) → Option (Nat × Nat)
  | [] => none
  | p :: ps => some (ps.foldl (fun best q => if f q < f best then q else best) p)

/-- The working state of the joining loop: the active nodes (spec section
4.2, step 1) and their current pairwise distances, indexed by position. -/
structure NJState where
  nodes : List PTree
  dist : Nat → Nat → ℚ

/-- Modelled from the spec (section 4.2, steps 2a-2e): one merge step.
The pair minimizing `Q` is joined under a new internal node `u` with
branch lengths `d_iu = 0.5*d_ij + (r_i - r_j)/(2*(n-2))` and
`d_ju = d_ij - d_iu`, each clamped to be nonnegative (`max 0 _`); `u` is
appended after the remaining nodes, which keep their relative order, and
distances to `u` are `d_uk = 0.5*(d_ik + d_jk - d_ij)`. -/
def njStep (s : NJState) : NJState :=
  let m := s.nodes.length
  match selectPair (fun p => qCrit s.dist m p.1 p.2) (lexPairs m) with
  | none => s
  | some (i, j) =>
    let dij := s.dist i j
    let ri := rowSum s.dist m i
    let rj := rowSum s.dist m j
    let diu := dij / 2 + (ri - rj) / (2 * ((m : ℚ) - 2))
    let dju := dij - diu
    let u := PTree.internal
      (.cons (s.nodes.getD i default) (max 0 diu)
        (.cons (s.nodes.getD j default) (max 0 dju) .nil))
    let keep := (List.range m).filter fun k => k ≠ i ∧ k ≠ j
    let dU := fun k => (s.dist i k + s.dist j k - dij) / 2
    ⟨(keep.map fun k => s.nodes.getD k default) ++ [u],
      fun a b =>
        if a = b then 0
        else if a = m - 2 then dU (keep.getD b 0)
        else if b = m - 2 then dU (keep.getD a 0)
        else s.dist (keep.getD a 0) (keep.getD b 0)⟩

/-- Modelled from the spec (section 4.2, step 2): merge until two current
nodes remain.  The fuel argument only bounds the iteration count;
`names.length` steps always suffice. -/
def njLoop : Nat → NJState → NJState
  | 0, s => s
  | fuel + 1, s => if s.nodes.length ≤ 2 then s else njLoop fuel (njStep s)

/-- Modelled from the spec (section 4.2, step 3): the two last nodes are
joined directly by an edge of length equal to their current distance.
With at least 3 taxa the second node is the last created internal node;
attaching the other to it yields the conventional degree-3 root.  With
exactly 2 taxa (two leaves) the single joining edge is represented in
rooted form: a degree-2 root whose child edges carry the distance and 0. -/
def joinLast (x y : PTree) (d : ℚ) : PTree :=
  match y with
  | .internal f => .internal (f.snoc x d)
  | .leaf b =>
    match x with
    | .internal f => .internal (f.snoc (PTree.leaf b) d)
    | .leaf a => .internal (.cons (.leaf a) d (.cons (.leaf b) 0 .nil))

/-- Modelled from the spec (section 4.2): the neighbor-joining tree built
from the distance matrix, standing for `constructor.nj(dm)` at src/code.py
line 250. -/
def nj (names : List String) (d : Nat → Nat → ℚ) : PTree :=
  let s := njLoop names.length ⟨names.map PTree.leaf, d⟩
  match s.nodes with
  | [x, y] => joinLast x y (s.dist 0 1)
  | [x] => x
  | _ => PTree.leaf ""

/-- The decimal digit character for `n % 10`. -/
def digitChar (n : Nat) : Char :=
  match n with
  | 0 => '0' | 1 => '1' | 2 => '2' | 3 => '3' | 4 => '4'
  | 5 => '5' | 6 => '6' | 7 => '7' | 8 => '8' | _ => '9'

/-- Decimal digits of `n`, most significant first; the first argument is
fuel (any value above `n` suffices). -/
def natDigitsF : Nat → Nat → List Char
  | 0, _ => []
  | fuel + 1, n =>
    if n < 10 then [digitChar n]
    else natDigitsF fuel (n / 10) ++ [digitChar (n % 10)]

def natDigits (n : Nat) : List Char := natDigitsF (n + 1) n

/-- Exact rendering of a rational branch length as
`numerator/denominator`, with a leading minus sign when negative.  The
Python code prints binary floats; the rational model renders exactly, so
the round-trip properties hold exactly rather than to a tolerance. -/
def ratChars (q : ℚ) : List Char :=
  (if q < 0 then ['-'] else []) ++ natDigits q.num.natAbs ++ '/' :: natDigits q.den

mutual
/-- Modelled from the spec (section 4.2, Serialization): depth-first
Newick rendering.  A leaf is rendered as its name (its branch length is
emitted by the parent edge list), an internal node as
`(child1:len1,child2:len2,...)` with no name attached. -/
def PTree.renderChars : PTree → List Char
  | .leaf a => a.data
  | .internal f => '(' :: (f.renderEdges ++ [')'])

/-- The comma-separated child edges, each `subtree:length`. -/
def PForest.renderEdges : PForest → List Char
  | .nil => []
  | .cons t q .nil => t.renderChars ++ ':' :: ratChars q
  | .cons t q rest@(.cons _ _ _) =>
      t.renderChars ++ ':' :: ratChars q ++ ',' :: rest.renderEdges
end

/-- The serialized Newick string handed to the download/visualization
steps, standing for `Phylo.write(tree, output, "newick")` plus `strip()`
at src/code.py lines 253-255: the rendered tree, terminated by `;`. -/
def toNewick (t : PTree) : String := String.mk (t.renderChars ++ [';'])

/-- The computational core of `construct_tree_from_fasta`
(src/code.py lines 226-263), stage by stage:
the too-few-sequences guard of lines 229-231 (spec:
`InsufficientInputError`); the pairwise distance loop of lines 237-246;
the duplicate-name validation performed when `DistanceMatrix(names,
matrix)` is constructed at line 248 (modelled from the spec, section 4.2:
`DegenerateTreeError`); the joining precondition of the tree builder
invoked at line 250 (modelled from the spec, section 4.2:
`InsufficientTaxaError`); finally the serialized Newick string of lines
253-255.  The second component counts completed alignment calls. -/
def construct_tree_from_fasta (records : List FastaRecord)
    (align : String → String → Except PipeError ℚ) :
    Except PipeError String × Nat :=
  if records.length < 2 then (.error .InsufficientInputError, 0)
  else
    match distanceFold records align with
    | (.error e, c) => (.error e, c)
    | (.ok m, c) =>
      let names := fastaNames records
      if names.Nodup then
        if names.length < 2 then (.error .InsufficientTaxaError, c)
        else (.ok (toNewick (nj names m)), c)
      else (.error .DegenerateTreeError, c)

/-- What the caller of the pipeline observes: either the complete success
artifact (the Newick string that is displayed, offered for download and
visualized, src/code.py lines 257-260) or the error message produced by
the exception handler at line 263.  No other outcome exists. -/
inductive UIOutcome where
  | shown (newick : String)
  | errorMessage (e : PipeError)
  deriving DecidableEq

/-- The public boundary of the upload pipeline: every failure of any
stage ends in the caught-error branch (src/code.py lines 262-263). -/
def uiRun (records : List FastaRecord)
    (align : String → String → Except PipeError ℚ) : UIOutcome :=
  match (construct_tree_from_fasta records align).1 with
  | .ok s => .shown s
  | .error e => .errorMessage e

/-- The five characters with a structural role in the Newick grammar. -/
def isDelim (c : Char) : Bool :=
  c == '(' || c == ')' || c == ',' || c == ':' || c == ';'

def charVal (c : Char) : Nat := c.toNat - 48

def parseNat (cs : List Char) : Option (Nat × List Char) :=
  let ds := cs.takeWhile Char.isDigit
  if ds.isEmpty then none
  else some (ds.foldl (fun a c => 10 * a + charVal c) 0, cs.drop ds.length)

/-- Parses an unsigned `numerator/denominator` rational. -/
def parseRatPos (cs : List Char) : Option (ℚ × List Char) :=
  match parseNat cs with
  | none => none
  | some (a, rest1) =>
    match rest1 with
    | [] => none
    | c2 :: rest2 =>
      if c2 = '/' then
        match parseNat rest2 with
        | none => none
        | some (b, rest3) => some ((a : ℚ) / (b : ℚ), rest3)
      else none

def parseRat (cs : List Char) : Option (ℚ × List Char) :=
  match cs with
  | [] => none
  | c :: rest =>
    if c = '-' then
      match parseRatPos rest with
      | none => none
      | some (q, rest1) => some (-q, rest1)
    else parseRatPos (c :: rest)

def parseName (cs : List Char) : Option (String × List Char) :=
  let nm := cs.takeWhile fun c => !(isDelim c)
  if nm.isEmpty then none
  else some (String.mk nm, cs.drop nm.length)

mutual
/-- Modelled from the spec (section 4.2): recursive-descent parser for the
emitted Newick grammar (the round-trip requirement; the source re-parses
the emitted string via the external `Phylo.read`, src/code.py line 94).
The first argument is fuel; the node count of the parsed tree bounds the
recursion depth needed. -/
def parseSub : Nat → List Char → Option (PTree × List Char)
  | 0, _ => none
  | fuel + 1, cs =>
    match cs with
    | [] => none
    | c :: rest =>
      if c = '(' then
        match parseEdges fuel rest with
        | some (f, rest1) => some (.internal f, rest1)
        | none => none
      else
        match parseName (c :: rest) with
        | some (a, rest1) => some (.leaf a, rest1)
        | none => none

/-- Parses `subtree:length` edges separated by `,` up to and including the
closing `)`. -/
def parseEdges : Nat → List Char → Option (PForest × List Char)
  | 0, _ => none
  | fuel + 1, cs =>
    match parseSub fuel cs with
    | none => none
    | some (t, cs1) =>
      match cs1 with
      | [] => none
      | c1 :: cs2 =>
        if c1 = ':' then
          match parseRat cs2 with
          | none => none
          | some (q, cs3) =>
            match cs3 with
            | [] => none
            | c3 :: cs4 =>
              if c3 = ',' then
                match parseEdges fuel cs4 with
                | some (f, cs5) => some (.cons t q f, cs5)
                | none => none
              else if c3 = ')' then some (.cons t q .nil, cs4)
              else none
        else none
end

/-- A Newick string parses when it is a subtree followed by the `;`
terminator, consuming the whole string. -/
def parseNewick (s : String) : Option PTree :=
  match parseSub s.length s.data with
  | some (t, [c]) => if c = ';' then some t else none
  | _ => none

/-- Whether a leaf name is usable in the Newick grammar: nonempty and free
of the delimiter characters. -/
def goodName (a : String) : Bool :=
  !a.data.isEmpty && a.data.all fun c => !(isDelim c)

mutual
/-- Structural well-formedness for parsing back: every leaf name is a
good name and every internal node has at least one child. -/
def PTree.goodT : PTree → Bool
  | .leaf a => goodName a
  | .internal f => f.goodF

def PForest.goodF : PForest → Bool
  | .nil => false
  | .cons t _ .nil => t.goodT
  | .cons t _ rest@(.cons _ _ _) => t.goodT && rest.goodF
end

/-- All leaf names appearing across a list of active trees, in order. -/
def flatLeaves (ts : List PTree) : List String := ts.flatMap PTree.leaves

/-- Total number of internal nodes across a list of active trees. -/
def sumInternal (ts : List PTree) : Nat := (ts.map PTree.internalCount).sum

/-- A concrete valid distance matrix (symmetric, zero diagonal, all
entries nonnegative) on three taxa: d(a,b) = 10, d(a,c) = d(b,c) = 1. -/
def dCx : Nat → Nat → ℚ := fun i j =>
  (([[0, 10, 1], [10, 0, 1], [1, 1, 0]] : List (List ℚ)).getD i []).getD j 0

theorem rowFold_ok (records : List FastaRecord) (σ : String → String → ℚ)
    (i : Nat) :
    ∀ k, k ≤ i → ∀ (m : Nat → Nat → ℚ) (c : Nat),
    ((List.range k).map fun j => (i, j)).foldl
        (alignPair records (okAlign σ)) (.ok m, c)
      = (.ok fun a b =>
          if a = i ∧ b < k then pairDistance records σ i b
          else if b = i ∧ a < k then pairDistance records σ i a
          else m a b, c + k) := by
  intro k
  induction k with
  | zero =>
    intro _ m c
    simp only [List.range_zero, List.map_nil, List.foldl_nil, Nat.add_zero]
    refine congrArg (fun f => (Except.ok f, c)) ?_
    funext a b
    simp
  | succ k ih =>
    intro hk m c
    rw [List.range_succ, List.map_append, List.foldl_append,
      ih (Nat.le_of_succ_le hk) m c]
    simp only [List.map_cons, List.map_nil, List.foldl_cons, List.foldl_nil,
      alignPair, okAlign]
    rw [show c + (k + 1) = c + k + 1 from rfl]
    refine congrArg (fun f => (Except.ok f, c + k + 1)) ?_
    funext a b
    simp only [setEntry, pairDistance]
    by_cases h1 : a = k ∧ b = i
    · rw [if_pos h1, if_neg (show ¬ (a = i ∧ b < k + 1) by omega),
        if_pos (show b = i ∧ a < k + 1 by omega), h1.1]
    · rw [if_neg h1]
      by_cases h2 : a = i ∧ b = k
      · rw [if_pos h2, if_pos (show a = i ∧ b < k + 1 by omega), h2.2]
      · rw [if_neg h2]
        by_cases h3 : a = i ∧ b < k
        · rw [if_pos h3, if_pos (show a = i ∧ b < k + 1 by omega)]
        · rw [if_neg h3]
          by_cases h4 : b = i ∧ a < k
          · rw [if_pos h4, if_neg (show ¬ (a = i ∧ b < k + 1) by omega),
              if_pos (show b = i ∧ a < k + 1 by omega)]
          · rw [if_neg h4, if_neg (show ¬ (a = i ∧ b < k + 1) by omega),
              if_neg (show ¬ (b = i ∧ a < k + 1) by omega)]

theorem countStep (n : Nat) : n * (n - 1) / 2 + n = (n + 1) * (n + 1 - 1) / 2 := by
  rw [show n + 1 - 1 = n from rfl]
  have h : (n + 1) * n = n * (n - 1) + 2 * n := by
    cases n with
    | zero => rfl
    | succ m =>
      simp only [Nat.succ_sub_one]
      ring
  have he : 2 ∣ n * (n - 1) := by
    cases n with
    | zero => exact ⟨0, rfl⟩
    | succ m =>
      simp only [Nat.succ_sub_one]
      rw [Nat.mul_comm]
      exact (Nat.even_mul_succ_self m).two_dvd
  omega

theorem pairFold_ok (records : List FastaRecord) (σ : String → String → ℚ) :
    ∀ n, (pairList n).foldl (alignPair records (okAlign σ)) (.ok fun _ _ => 0, 0)
      = (.ok fun a b =>
          if a ≠ b ∧ a < n ∧ b < n then
            pairDistance records σ (max a b) (min a b)
          else 0, n * (n - 1) / 2) := by
  intro n
  induction n with
  | zero =>
    simp only [pairList, List.foldl_nil, Nat.zero_mul, Nat.zero_div]
    refine congrArg (fun f => (Except.ok f, 0)) ?_
    funext a b
    simp
  | succ n ih =>
    rw [pairList, List.foldl_append, ih, rowFold_ok records σ n n (le_refl n),
      countStep n]
    refine congrArg (fun f => (Except.ok f, (n + 1) * (n + 1 - 1) / 2)) ?_
    funext a b
    by_cases h1 : a = n ∧ b < n
    · rw [if_pos h1, if_pos (show a ≠ b ∧ a < n + 1 ∧ b < n + 1 by omega),
        max_eq_left (show b ≤ a by omega), min_eq_right (show b ≤ a by omega),
        h1.1]
    · rw [if_neg h1]
      by_cases h2 : b = n ∧ a < n
      · rw [if_pos h2, if_pos (show a ≠ b ∧ a < n + 1 ∧ b < n + 1 by omega),
          max_eq_right (show a ≤ b by omega), min_eq_left (show a ≤ b by omega),
          h2.1]
      · rw [if_neg h2]
        by_cases h3 : a ≠ b ∧ a < n ∧ b < n
        · rw [if_pos h3, if_pos (show a ≠ b ∧ a < n + 1 ∧ b < n + 1 by omega)]
        · rw [if_neg h3, if_neg (show ¬ (a ≠ b ∧ a < n + 1 ∧ b < n + 1) by omega)]

/-- Closed form of the computed distance matrix: diagonal and
out-of-range entries are the initial `0.0`; every off-diagonal in-range
entry holds the normalized distance computed at the iteration
`(max a b, min a b)` of the pair loop. -/
theorem fastaDistance_eq (records : List FastaRecord) (σ : String → String → ℚ)
    (a b : Nat) :
    fastaDistance records σ a b
      = if a ≠ b ∧ a < records.length ∧ b < records.length then
          pairDistance records σ (max a b) (min a b)
        else 0 := by
  unfold fastaDistance distanceFold
  rw [pairFold_ok]

theorem perm_of_eq {α : Type} {l1 l2 : List α} (h : l1 = l2) : l1.Perm l2 :=
  h ▸ List.Perm.refl _

theorem map_getD_range (l : List PTree) :
    (List.range l.length).map (fun k => l.getD k default) = l := by
  induction l with
  | nil => rfl
  | cons x t ih =>
    rw [List.length_cons, List.range_succ_eq_map, List.map_cons, List.map_map]
    refine congrArg₂ List.cons rfl ?_
    refine (List.map_congr_left ?_).trans ih
    intro k _
    rfl

theorem foldlMin_mem (f : Nat × Nat → ℚ) :
    ∀ (ps : List (Nat × Nat)) (p : Nat × Nat),
      ps.foldl (fun best q => if f q < f best then q else best) p ∈ p :: ps := by
  intro ps
  induction ps with
  | nil => intro p; exact List.mem_cons_self _ _
  | cons q ps ih =>
    intro p
    rw [List.foldl_cons]
    by_cases hq : f q < f p
    · rw [if_pos hq]
      exact List.mem_cons_of_mem _ (ih q)
    · rw [if_neg hq]
      rcases List.mem_cons.mp (ih p) with h | h
      · exact List.mem_cons.mpr (Or.inl h)
      · exact List.mem_cons_of_mem _ (List.mem_cons_of_mem _ h)

theorem selectPair_mem (f : Nat × Nat → ℚ) (l : List (Nat × Nat))
    (q : Nat × Nat) (h : selectPair f l = some q) : q ∈ l := by
  cases l with
  | nil => exact absurd h (by simp [selectPair])
  | cons p ps =>
    simp only [selectPair, Option.some.injEq] at h
    exact h ▸ foldlMin_mem f ps p

theorem lexPairs_mem (m : Nat) (p : Nat × Nat) (h : p ∈ lexPairs m) :
    p.1 < p.2 ∧ p.2 < m := by
  unfold lexPairs at h
  simp only [List.mem_flatMap, List.mem_map, List.mem_filter, List.mem_range,
    decide_eq_true_eq] at h
  obtain ⟨i, hi, j, ⟨hj, hij⟩, rfl⟩ := h
  exact ⟨hij, hj⟩

theorem lexPairs_mem_01 (m : Nat) (h2 : 2 ≤ m) : (0, 1) ∈ lexPairs m := by
  unfold lexPairs
  simp only [List.mem_flatMap, List.mem_map, List.mem_filter, List.mem_range,
    decide_eq_true_eq]
  exact ⟨0, by omega, 1, ⟨by omega, by omega⟩, rfl⟩

theorem filter_not_keep (i j : Nat) (hij : i < j) :
    ∀ m, (List.range m).filter (fun k => !(decide (k ≠ i ∧ k ≠ j)))
      = if j < m then [i, j] else if i < m then [i] else [] := by
  intro m
  induction m with
  | zero => simp
  | succ m ih =>
    rw [List.range_succ, List.filter_append, ih]
    by_cases hjm : j < m
    · have hm : (!(decide (m ≠ i ∧ m ≠ j))) = false := by
        simp only [Bool.not_eq_false', decide_eq_true_eq]
        omega
      rw [if_pos hjm, if_pos (by omega : j < m + 1)]
      simp [hm] <;> omega
    · by_cases hjm2 : j = m
      · subst hjm2
        have hm : (!(decide (j ≠ i ∧ j ≠ j))) = true := by
          simp
        rw [if_neg hjm, if_pos (by omega : i < j), if_pos (by omega : j < j + 1)]
        simp [hm]
      · have hm0 : ¬ j < m + 1 := by omega
        rw [if_neg hjm, if_neg hm0]
        by_cases him : i = m
        · subst him
          have hm : (!(decide (i ≠ i ∧ i ≠ j))) = true := by simp
          rw [if_neg (by omega : ¬ i < i), if_pos (by omega : i < i + 1)]
          simp [hm]
        · have hm : (!(decide (m ≠ i ∧ m ≠ j))) = false := by
            simp only [Bool.not_eq_false', decide_eq_true_eq]
            omega
          by_cases him2 : i < m
          · rw [if_pos him2, if_pos (by omega : i < m + 1)]
            simp [hm] <;> omega
          · rw [if_neg him2, if_neg (by omega : ¬ i < m + 1)]
            simp [hm] <;> omega

theorem range_perm_keep (m i j : Nat) (hij : i < j) (hjm : j < m) :
    (List.range m).Perm
      (((List.range m).filter fun k => k ≠ i ∧ k ≠ j) ++ [i, j]) := by
  have h := List.filter_append_perm (fun k => decide (k ≠ i ∧ k ≠ j)) (List.range m)
  have h2 := filter_not_keep i j hij m
  rw [if_pos hjm] at h2
  have h3 : (((List.range m).filter fun k => k ≠ i ∧ k ≠ j) ++ [i, j]).Perm
      (List.range m) := by
    rw [← h2]
    exact h
  exact h3.symm

theorem njStep_spec (s : NJState) (h3 : 3 ≤ s.nodes.length) :
    ∃ i j q1 q2, i < j ∧ j < s.nodes.length ∧ 0 ≤ q1 ∧ 0 ≤ q2 ∧
      (njStep s).nodes
        = (((List.range s.nodes.length).filter fun k => k ≠ i ∧ k ≠ j).map
            fun k => s.nodes.getD k default)
          ++ [.internal (.cons (s.nodes.getD i default) q1
              (.cons (s.nodes.getD j default) q2 .nil))] := by
  rcases hsel : selectPair (fun p => qCrit s.dist s.nodes.length p.1 p.2)
      (lexPairs s.nodes.length) with _ | ⟨i, j⟩
  · exfalso
    have hmem := lexPairs_mem_01 s.nodes.length (by omega)
    rcases hl : lexPairs s.nodes.length with _ | ⟨p, ps⟩
    · rw [hl] at hmem
      exact List.not_mem_nil _ hmem
    · rw [hl] at hsel
      simp [selectPair] at hsel
  · have hmem := selectPair_mem _ _ _ hsel
    obtain ⟨hij, hjm⟩ := lexPairs_mem _ _ hmem
    refine ⟨i, j,
      max 0 (s.dist i j / 2
        + (rowSum s.dist s.nodes.length i - rowSum s.dist s.nodes.length j)
          / (2 * ((s.nodes.length : ℚ) - 2))),
      max 0 (s.dist i j - (s.dist i j / 2
        + (rowSum s.dist s.nodes.length i - rowSum s.dist s.nodes.length j)
          / (2 * ((s.nodes.length : ℚ) - 2)))),
      hij, hjm, le_max_left _ _, le_max_left _ _, ?_⟩
    simp only [njStep, hsel]

theorem getD_mem (l : List PTree) (k : Nat) (hk : k < l.length) :
    l.getD k default ∈ l := by
  rw [List.getD_eq_getElem l default hk]
  exact List.getElem_mem hk

theorem njStep_length (s : NJState) (h3 : 3 ≤ s.nodes.length) :
    (njStep s).nodes.length = s.nodes.length - 1 := by
  obtain ⟨i, j, q1, q2, hij, hjm, _, _, hv⟩ := njStep_spec s h3
  have hp := (range_perm_keep s.nodes.length i j hij hjm).length_eq
  rw [List.length_range, List.length_append] at hp
  rw [hv, List.length_append, List.length_map]
  simp only [List.length_cons, List.length_nil] at hp ⊢
  omega

theorem flatLeaves_eq_range (s : List PTree) :
    flatLeaves s = (List.range s.length).flatMap fun k => (s.getD k default).leaves := by
  unfold flatLeaves
  conv_lhs => rw [← map_getD_range s]
  simp only [List.flatMap_map]

theorem njStep_leaves (s : NJState) (h3 : 3 ≤ s.nodes.length) :
    (flatLeaves (njStep s).nodes).Perm (flatLeaves s.nodes) := by
  obtain ⟨i, j, q1, q2, hij, hjm, _, _, hv⟩ := njStep_spec s h3
  unfold flatLeaves
  rw [hv]
  simp only [List.flatMap_append, List.flatMap_map]
  have hperm := (range_perm_keep s.nodes.length i j hij hjm).flatMap_right
      fun k => (s.nodes.getD k default).leaves
  simp only [List.flatMap_append] at hperm
  have hu : [PTree.internal (.cons (s.nodes.getD i default) q1
      (.cons (s.nodes.getD j default) q2 .nil))].flatMap PTree.leaves
      = [i, j].flatMap fun k => (s.nodes.getD k default).leaves := by
    simp [PTree.leaves, PForest.leavesF]
  rw [hu]
  exact hperm.symm.trans (perm_of_eq (flatLeaves_eq_range s.nodes).symm)

theorem sumInternal_eq_range (s : List PTree) :
    sumInternal s
      = ((List.range s.length).map fun k => (s.getD k default).internalCount).sum := by
  unfold sumInternal
  conv_lhs => rw [← map_getD_range s]
  rw [List.map_map]
  rfl

theorem njStep_internal (s : NJState) (h3 : 3 ≤ s.nodes.length) :
    sumInternal (njStep s).nodes = sumInternal s.nodes + 1 := by
  obtain ⟨i, j, q1, q2, hij, hjm, _, _, hv⟩ := njStep_spec s h3
  have hperm := ((range_perm_keep s.nodes.length i j hij hjm).map
      fun k => (s.nodes.getD k default).internalCount).sum_eq
  have hold : sumInternal s.nodes
      = ((((List.range s.nodes.length).filter fun k => k ≠ i ∧ k ≠ j).map
          fun k => (s.nodes.getD k default).internalCount).sum)
        + ((s.nodes.getD i default).internalCount
          + (s.nodes.getD j default).internalCount) := by
    rw [sumInternal_eq_range s.nodes, hperm]
    simp [List.map_append, List.sum_append]
  have hnew : sumInternal (njStep s).nodes
      = ((((List.range s.nodes.length).filter fun k => k ≠ i ∧ k ≠ j).map
          fun k => (s.nodes.getD k default).internalCount).sum)
        + (1 + ((s.nodes.getD i default).internalCount
          + (s.nodes.getD j default).internalCount)) := by
    unfold sumInternal
    rw [hv]
    simp only [List.map_append, List.map_map, List.sum_append, Function.comp_def,
      List.map_cons, List.map_nil, List.sum_cons, List.sum_nil,
      PTree.internalCount, PForest.internalCountF]
    omega
  rw [hnew, hold]
  omega

theorem njStep_branches (s : NJState) (h3 : 3 ≤ s.nodes.length)
    (hb : ∀ t ∈ s.nodes, ∀ q ∈ t.branches, 0 ≤ q) :
    ∀ t ∈ (njStep s).nodes, ∀ q ∈ t.branches, 0 ≤ q := by
  obtain ⟨i, j, q1, q2, hij, hjm, hq1, hq2, hv⟩ := njStep_spec s h3
  rw [hv]
  intro t ht q hq
  rcases List.mem_append.mp ht with h | h
  · obtain ⟨k, hk, rfl⟩ := List.mem_map.mp h
    have hkm : k < s.nodes.length :=
      List.mem_range.mp (List.mem_filter.mp hk).1
    exact hb _ (getD_mem _ _ hkm) q hq
  · rw [List.mem_singleton.mp h] at hq
    simp only [PTree.branches, PForest.branchesF, List.mem_cons, List.mem_append,
      List.append_nil, List.not_mem_nil, or_false] at hq
    rcases hq with rfl | h1 | rfl | h2
    · exact hq1
    · exact hb _ (getD_mem _ _ (by omega)) q h1
    · exact hq2
    · exact hb _ (getD_mem _ _ hjm) q h2

theorem njStep_good (s : NJState) (h3 : 3 ≤ s.nodes.length)
    (hg : ∀ t ∈ s.nodes, t.goodT = true) :
    ∀ t ∈ (njStep s).nodes, t.goodT = true := by
  obtain ⟨i, j, q1, q2, hij, hjm, _, _, hv⟩ := njStep_spec s h3
  rw [hv]
  intro t ht
  rcases List.mem_append.mp ht with h | h
  · obtain ⟨k, hk, rfl⟩ := List.mem_map.mp h
    have hkm : k < s.nodes.length :=
      List.mem_range.mp (List.mem_filter.mp hk).1
    exact hg _ (getD_mem _ _ hkm)
  · rw [List.mem_singleton.mp h]
    simp only [PTree.goodT, PForest.goodF]
    rw [hg _ (getD_mem _ _ (by omega)), hg _ (getD_mem _ _ hjm)]
    rfl

theorem njStep_last (s : NJState) (h3 : 3 ≤ s.nodes.length) :
    ∃ f, (njStep s).nodes.getLast? = some (.internal f) := by
  obtain ⟨i, j, q1, q2, _, _, _, _, hv⟩ := njStep_spec s h3
  exact ⟨_, by rw [hv]; exact List.getLast?_concat _⟩

theorem njLoop_small (fuel : Nat) (s : NJState) (h : s.nodes.length ≤ 2) :
    njLoop fuel s = s := by
  cases fuel with
  | zero => rfl
  | succ fuel => rw [njLoop, if_pos h]

theorem njLoop_spec (fuel : Nat) :
    ∀ s : NJState, 2 ≤ s.nodes.length → s.nodes.length ≤ 2 + fuel →
    (njLoop fuel s).nodes.length = 2 ∧
    (flatLeaves (njLoop fuel s).nodes).Perm (flatLeaves s.nodes) ∧
    sumInternal (njLoop fuel s).nodes = sumInternal s.nodes + (s.nodes.length - 2) ∧
    ((∀ t ∈ s.nodes, ∀ q ∈ t.branches, 0 ≤ q) →
      ∀ t ∈ (njLoop fuel s).nodes, ∀ q ∈ t.branches, 0 ≤ q) ∧
    ((∀ t ∈ s.nodes, t.goodT = true) →
      ∀ t ∈ (njLoop fuel s).nodes, t.goodT = true) := by
  induction fuel with
  | zero =>
    intro s h2 hle
    simp only [njLoop]
    exact ⟨by omega, List.Perm.refl _, by omega, fun h => h, fun h => h⟩
  | succ fuel ih =>
    intro s h2 hle
    by_cases hsmall : s.nodes.length ≤ 2
    · rw [njLoop_small _ _ hsmall]
      exact ⟨by omega, List.Perm.refl _, by omega, fun h => h, fun h => h⟩
    · have h3 : 3 ≤ s.nodes.length := by omega
      rw [show njLoop (fuel + 1) s = njLoop fuel (njStep s) by
        rw [njLoop, if_neg hsmall]]
      have hlen := njStep_length s h3
      obtain ⟨hl2, hperm, hcount, hbr, hgd⟩ := ih (njStep s) (by omega) (by omega)
      refine ⟨hl2, hperm.trans (njStep_leaves s h3), ?_,
        fun hb => hbr (njStep_branches s h3 hb),
        fun hg => hgd (njStep_good s h3 hg)⟩
      rw [hcount, njStep_internal s h3]
      omega

theorem njLoop_last (fuel : Nat) :
    ∀ s : NJState, 3 ≤ s.nodes.length → s.nodes.length ≤ 2 + fuel →
    ∃ f, (njLoop fuel s).nodes.getLast? = some (.internal f) := by
  induction fuel with
  | zero =>
    intro s h3 hle
    exact ((by omega : False)).elim
  | succ fuel ih =>
    intro s h3 hle
    rw [show njLoop (fuel + 1) s = njLoop fuel (njStep s) by
      rw [njLoop, if_neg (by omega)]]
    by_cases hsm : (njStep s).nodes.length ≤ 2
    · rw [njLoop_small _ _ hsm]
      exact njStep_last s h3
    · exact ih (njStep s) (by omega) (by rw [njStep_length s h3]; omega)

theorem leavesF_snoc : ∀ (f : PForest) (t : PTree) (q : ℚ),
    (f.snoc t q).leavesF = f.leavesF ++ t.leaves
  | .nil, t, q => by simp [PForest.snoc, PForest.leavesF]
  | .cons t0 q0 rest, t, q => by
    simp [PForest.snoc, PForest.leavesF, leavesF_snoc rest t q]

theorem internalCountF_snoc : ∀ (f : PForest) (t : PTree) (q : ℚ),
    (f.snoc t q).internalCountF = f.internalCountF + t.internalCount
  | .nil, t, q => by simp [PForest.snoc, PForest.internalCountF]
  | .cons t0 q0 rest, t, q => by
    simp only [PForest.snoc, PForest.internalCountF,
      internalCountF_snoc rest t q]
    omega

theorem branchesF_snoc : ∀ (f : PForest) (t : PTree) (q : ℚ),
    (f.snoc t q).branchesF = f.branchesF ++ q :: t.branches
  | .nil, t, q => by simp [PForest.snoc, PForest.branchesF]
  | .cons t0 q0 rest, t, q => by
    simp [PForest.snoc, PForest.branchesF, branchesF_snoc rest t q]

theorem goodF_snoc : ∀ (f : PForest) (t : PTree) (q : ℚ),
    f.goodF = true → t.goodT = true → (f.snoc t q).goodF = true
  | .nil, t, q, _, ht => by simp [PForest.snoc, PForest.goodF, ht]
  | .cons t0 q0 .nil, t, q, hf, ht => by
    simp only [PForest.goodF] at hf
    simp [PForest.snoc, PForest.goodF, hf, ht]
  | .cons t0 q0 (.cons t1 q1 rest), t, q, hf, ht => by
    simp only [PForest.goodF, Bool.and_eq_true] at hf
    have hrec : (PForest.cons t1 q1 (rest.snoc t q)).goodF = true :=
      goodF_snoc (.cons t1 q1 rest) t q hf.2 ht
    simp only [PForest.snoc, PForest.goodF, hf.1, hrec, Bool.and_self]

theorem flatLeaves_leaf_map (names : List String) :
    flatLeaves (names.map PTree.leaf) = names := by
  induction names with
  | nil => rfl
  | cons a t ih =>
    simp only [List.map_cons, flatLeaves, List.flatMap_cons, PTree.leaves] at ih ⊢
    rw [ih]
    rfl

theorem sumInternal_leaf_map (names : List String) :
    sumInternal (names.map PTree.leaf) = 0 := by
  induction names with
  | nil => rfl
  | cons a t ih =>
    simp only [sumInternal, List.map_cons, List.sum_cons, PTree.internalCount] at ih ⊢
    omega

theorem nj_final_state (names : List String) (d : Nat → Nat → ℚ)
    (h2 : 2 ≤ names.length) :
    ∃ x y : PTree,
      (njLoop names.length ⟨names.map PTree.leaf, d⟩).nodes = [x, y] ∧
      (x.leaves ++ y.leaves).Perm names ∧
      x.internalCount + y.internalCount = names.length - 2 ∧
      (∀ q ∈ x.branches, 0 ≤ q) ∧ (∀ q ∈ y.branches, 0 ≤ q) ∧
      ((∀ a ∈ names, goodName a = true) → x.goodT = true ∧ y.goodT = true) := by
  obtain ⟨hl2, hperm, hcount, hbr, hgd⟩ :=
    njLoop_spec names.length ⟨names.map PTree.leaf, d⟩
      (by simpa using h2) (by simp)
  obtain ⟨x, y, hxy⟩ := List.length_eq_two.mp hl2
  have hinitb : ∀ t ∈ names.map PTree.leaf, ∀ q ∈ PTree.branches t, 0 ≤ q := by
    intro t ht q hq
    obtain ⟨a, _, rfl⟩ := List.mem_map.mp ht
    simp [PTree.branches] at hq
  refine ⟨x, y, hxy, ?_, ?_, ?_, ?_, ?_⟩
  · have h := hperm
    rw [hxy] at h
    have h3 := h.trans (perm_of_eq
      (show flatLeaves ((⟨names.map PTree.leaf, d⟩ : NJState).nodes) = names from
        flatLeaves_leaf_map names))
    refine List.Perm.trans (perm_of_eq ?_) h3
    simp [flatLeaves]
  · have h0 : sumInternal ((⟨names.map PTree.leaf, d⟩ : NJState).nodes) = 0 :=
      sumInternal_leaf_map names
    have hL : (⟨names.map PTree.leaf, d⟩ : NJState).nodes.length = names.length := by
      simp
    rw [hxy, h0, hL] at hcount
    simp only [sumInternal, List.map_cons, List.map_nil, List.sum_cons,
      List.sum_nil] at hcount
    omega
  · have hb := hbr hinitb
    rw [hxy] at hb
    exact fun q hq => hb x (by simp) q hq
  · have hb := hbr hinitb
    rw [hxy] at hb
    exact fun q hq => hb y (by simp) q hq
  · intro hn
    have hinitg : ∀ t ∈ names.map PTree.leaf, PTree.goodT t = true := by
      intro t ht
      obtain ⟨a, ha, rfl⟩ := List.mem_map.mp ht
      simpa [PTree.goodT] using hn a ha
    have hg := hgd hinitg
    rw [hxy] at hg
    exact ⟨hg x (by simp), hg y (by simp)⟩

theorem nj_eq_joinLast (names : List String) (d : Nat → Nat → ℚ) (x y : PTree)
    (hxy : (njLoop names.length ⟨names.map PTree.leaf, d⟩).nodes = [x, y]) :
    nj names d
      = joinLast x y ((njLoop names.length ⟨names.map PTree.leaf, d⟩).dist 0 1) := by
  simp only [nj]
  rw [hxy]

theorem nj_last_internal (names : List String) (d : Nat → Nat → ℚ) (x y : PTree)
    (h3 : 3 ≤ names.length)
    (hxy : (njLoop names.length ⟨names.map PTree.leaf, d⟩).nodes = [x, y]) :
    ∃ f, y = PTree.internal f := by
  obtain ⟨f, hlast⟩ := njLoop_last names.length ⟨names.map PTree.leaf, d⟩
    (by simpa using h3) (by simp)
  rw [hxy] at hlast
  simp only [List.getLast?_cons_cons, List.getLast?_singleton,
    Option.some.injEq] at hlast
  exact ⟨f, hlast⟩

theorem nj_leaves_and_count (names : List String) (d : Nat → Nat → ℚ)
    (h3 : 3 ≤ names.length) :
    ((nj names d).leaves).Perm names ∧
    (nj names d).internalCount = names.length - 2 := by
  obtain ⟨x, y, hxy, hperm, hcount, _, _, _⟩ := nj_final_state names d (by omega)
  obtain ⟨f, rfl⟩ := nj_last_internal names d x y h3 hxy
  rw [nj_eq_joinLast names d x (PTree.internal f) hxy]
  constructor
  · simp only [joinLast, PTree.leaves, leavesF_snoc]
    refine List.perm_append_comm.trans ?_
    simpa [PTree.leaves] using hperm
  · simp only [joinLast, PTree.internalCount, internalCountF_snoc]
    simp only [PTree.internalCount] at hcount
    omega

theorem nj_branch_clamping (names : List String) (d : Nat → Nat → ℚ)
    (h2 : 2 ≤ names.length) :
    (∀ t ∈ (njLoop names.length ⟨names.map PTree.leaf, d⟩).nodes,
      ∀ q ∈ t.branches, 0 ≤ q) ∧
    (∀ q ∈ (nj names d).branches,
      0 ≤ q ∨ q = (njLoop names.length ⟨names.map PTree.leaf, d⟩).dist 0 1) := by
  obtain ⟨x, y, hxy, _, _, hbx, hby, _⟩ := nj_final_state names d h2
  constructor
  · obtain ⟨_, _, _, hbr, _⟩ := njLoop_spec names.length ⟨names.map PTree.leaf, d⟩
      (by simpa using h2) (by simp)
    refine hbr ?_
    intro t ht q hq
    obtain ⟨a, _, rfl⟩ := List.mem_map.mp ht
    simp [PTree.branches] at hq
  · rw [nj_eq_joinLast names d x y hxy]
    intro q hq
    cases y with
    | internal f =>
      simp only [joinLast, PTree.branches, branchesF_snoc] at hq
      rcases List.mem_append.mp hq with h | h
      · exact Or.inl (hby q h)
      · rcases List.mem_cons.mp h with rfl | h2
        · exact Or.inr rfl
        · exact Or.inl (hbx q h2)
    | leaf b =>
      cases x with
      | internal f =>
        simp only [joinLast, PTree.branches, branchesF_snoc] at hq
        rcases List.mem_append.mp hq with h | h
        · exact Or.inl (hbx q h)
        · rcases List.mem_cons.mp h with rfl | h2
          · exact Or.inr rfl
          · exact Or.inl (hby q h2)
      | leaf a =>
        simp [joinLast, PTree.branches, PForest.branchesF] at hq
        rcases hq with rfl | rfl
        · exact Or.inr rfl
        · exact Or.inl le_rfl

theorem nj_two_taxa (names : List String) (d : Nat → Nat → ℚ) (a b : String)
    (hn : names = [a, b]) :
    nj names d = .internal (.cons (.leaf a) (d 0 1) (.cons (.leaf b) 0 .nil)) ∧
    (nj names d).leaves = [a, b] ∧
    (nj names d).internalCount = 1 ∧
    (nj names d).branches.sum = d 0 1 := by
  subst hn
  have hloop := njLoop_small ([a, b].length) ⟨[a, b].map PTree.leaf, d⟩ (by simp)
  have hxy : (njLoop ([a, b].length) ⟨[a, b].map PTree.leaf, d⟩).nodes
      = [PTree.leaf a, PTree.leaf b] := by
    rw [hloop]
    rfl
  have hd : (njLoop ([a, b].length) ⟨[a, b].map PTree.leaf, d⟩).dist 0 1 = d 0 1 := by
    rw [hloop]
  rw [nj_eq_joinLast [a, b] d (PTree.leaf a) (PTree.leaf b) hxy, hd]
  refine ⟨rfl, ?_, ?_, ?_⟩
  · simp [joinLast, PTree.leaves, PForest.leavesF]
  · simp [joinLast, PTree.internalCount, PForest.internalCountF]
  · simp [joinLast, PTree.branches, PForest.branchesF]

theorem digitChar_isDigit (n : Nat) (h : n < 10) : (digitChar n).isDigit = true := by
  interval_cases n <;> rfl

theorem charVal_digitChar (n : Nat) (h : n < 10) : charVal (digitChar n) = n := by
  interval_cases n <;> rfl

theorem natDigitsF_all_digit : ∀ fuel n, n < fuel →
    ∀ c ∈ natDigitsF fuel n, c.isDigit = true := by
  intro fuel
  induction fuel with
  | zero => intro n h; exact ((by omega : False)).elim
  | succ fuel ih =>
    intro n h c hc
    rw [natDigitsF] at hc
    by_cases h10 : n < 10
    · rw [if_pos h10] at hc
      rw [List.mem_singleton.mp hc]
      exact digitChar_isDigit n h10
    · rw [if_neg h10] at hc
      rcases List.mem_append.mp hc with h1 | h1
      · exact ih (n / 10) (by omega) c h1
      · rw [List.mem_singleton.mp h1]
        exact digitChar_isDigit (n % 10) (by omega)

theorem natDigitsF_ne_nil (fuel n : Nat) (h : n < fuel) :
    natDigitsF fuel n ≠ [] := by
  cases fuel with
  | zero => exact ((by omega : False)).elim
  | succ fuel =>
    rw [natDigitsF]
    by_cases h10 : n < 10
    · rw [if_pos h10]
      simp
    · rw [if_neg h10]
      simp

theorem valDigits_natDigitsF : ∀ fuel n a, n < fuel →
    (natDigitsF fuel n).foldl (fun a c => 10 * a + charVal c) a
      = a * 10 ^ (natDigitsF fuel n).length + n := by
  intro fuel
  induction fuel with
  | zero => intro n a h; exact ((by omega : False)).elim
  | succ fuel ih =>
    intro n a h
    rw [natDigitsF]
    by_cases h10 : n < 10
    · rw [if_pos h10]
      simp only [List.foldl_cons, List.foldl_nil, List.length_singleton,
        pow_one, charVal_digitChar n h10]
      ring
    · rw [if_neg h10]
      rw [List.foldl_append, ih (n / 10) a (by omega)]
      simp only [List.foldl_cons, List.foldl_nil, List.length_append,
        List.length_singleton, charVal_digitChar (n % 10) (by omega)]
      have hmod : 10 * (n / 10) + n % 10 = n := Nat.div_add_mod n 10
      rw [pow_succ]
      calc 10 * (a * 10 ^ (natDigitsF fuel (n / 10)).length + n / 10) + n % 10
          = a * (10 ^ (natDigitsF fuel (n / 10)).length * 10)
            + (10 * (n / 10) + n % 10) := by ring
        _ = a * (10 ^ (natDigitsF fuel (n / 10)).length * 10) + n := by rw [hmod]

theorem natDigits_all_digit (n : Nat) : ∀ c ∈ natDigits n, c.isDigit = true :=
  natDigitsF_all_digit (n + 1) n (Nat.lt_succ_self n)

theorem natDigits_ne_nil (n : Nat) : natDigits n ≠ [] :=
  natDigitsF_ne_nil (n + 1) n (Nat.lt_succ_self n)

theorem valDigits_natDigits (n : Nat) :
    (natDigits n).foldl (fun a c => 10 * a + charVal c) 0 = n := by
  rw [natDigits, valDigits_natDigitsF (n + 1) n 0 (Nat.lt_succ_self n)]
  ring

theorem takeWhile_append_all (p : Char → Bool) :
    ∀ (xs ys : List Char), (∀ c ∈ xs, p c = true) →
    (∀ c, ys.head? = some c → p c = false) →
    (xs ++ ys).takeWhile p = xs := by
  intro xs
  induction xs with
  | nil =>
    intro ys _ hys
    cases ys with
    | nil => rfl
    | cons c rest =>
      simp [List.takeWhile_cons, hys c rfl]
  | cons x xs ih =>
    intro ys hxs hys
    simp [List.takeWhile_cons, hxs x (List.mem_cons_self x xs),
      ih ys (fun c hc => hxs c (List.mem_cons_of_mem _ hc)) hys]

theorem parseNat_append (n : Nat) (rest : List Char)
    (hrest : ∀ c, rest.head? = some c → c.isDigit = false) :
    parseNat (natDigits n ++ rest) = some (n, rest) := by
  have htw : (natDigits n ++ rest).takeWhile Char.isDigit = natDigits n :=
    takeWhile_append_all _ _ _ (natDigits_all_digit n) hrest
  have hne : (natDigits n).isEmpty = false := by
    cases h : natDigits n with
    | nil => exact absurd h (natDigits_ne_nil n)
    | cons c cs => rfl
  simp only [parseNat, htw, hne, Bool.false_eq_true, if_false,
    valDigits_natDigits n, List.drop_left, Option.some.injEq]

theorem parseRatPos_append (a b : Nat) (rest : List Char)
    (hrest : ∀ c, rest.head? = some c → c.isDigit = false) :
    parseRatPos (natDigits a ++ '/' :: (natDigits b ++ rest))
      = some ((a : ℚ) / (b : ℚ), rest) := by
  have h1 : parseNat (natDigits a ++ '/' :: (natDigits b ++ rest))
      = some (a, '/' :: (natDigits b ++ rest)) :=
    parseNat_append a _ (fun c hc => by
      simp only [List.head?_cons, Option.some.injEq] at hc
      rw [← hc]
      rfl)
  have h2 : parseNat (natDigits b ++ rest) = some (b, rest) :=
    parseNat_append b rest hrest
  simp [parseRatPos, h1, h2]

theorem rat_pos_val (q : ℚ) (hq : ¬ q < 0) :
    ((q.num.natAbs : ℚ) / (q.den : ℚ)) = q := by
  have hnn : 0 ≤ q.num := Rat.num_nonneg.mpr (not_lt.mp hq)
  have h1 : ((q.num.natAbs : ℚ)) = ((q.num : ℚ)) := by
    rw [Int.cast_natAbs]
    exact_mod_cast abs_of_nonneg hnn
  rw [h1, Rat.num_div_den]

theorem rat_neg_val (q : ℚ) (hq : q < 0) :
    -((q.num.natAbs : ℚ) / (q.den : ℚ)) = q := by
  have hn : q.num < 0 := by
    by_contra h
    exact absurd (Rat.num_nonneg.mp (not_lt.mp h)) (not_le.mpr hq)
  have h1 : ((q.num.natAbs : ℚ)) = -((q.num : ℚ)) := by
    rw [Int.cast_natAbs]
    exact_mod_cast abs_of_neg hn
  rw [h1, neg_div, neg_neg, Rat.num_div_den]

theorem parseRat_append (q : ℚ) (rest : List Char)
    (hrest : ∀ c, rest.head? = some c → c.isDigit = false) :
    parseRat (ratChars q ++ rest) = some (q, rest) := by
  have hp := parseRatPos_append q.num.natAbs q.den rest hrest
  by_cases hq : q < 0
  · have hr : ratChars q ++ rest
        = '-' :: (natDigits q.num.natAbs ++ '/' :: (natDigits q.den ++ rest)) := by
      simp [ratChars, hq, List.append_assoc]
    rw [hr]
    simp [parseRat, hp, rat_neg_val q hq]
  · obtain ⟨c0, cs0, heq⟩ : ∃ c0 cs0, natDigits q.num.natAbs = c0 :: cs0 := by
      cases h : natDigits q.num.natAbs with
      | nil => exact absurd h (natDigits_ne_nil _)
      | cons c0 cs0 => exact ⟨c0, cs0, rfl⟩
    have hc0 : c0.isDigit = true :=
      natDigits_all_digit q.num.natAbs c0 (heq ▸ List.mem_cons_self c0 cs0)
    have hc0m : ¬ c0 = '-' := by
      intro h
      rw [h] at hc0
      exact absurd hc0 (by decide)
    have hr : ratChars q ++ rest
        = c0 :: (cs0 ++ '/' :: (natDigits q.den ++ rest)) := by
      simp [ratChars, hq, heq, List.append_assoc]
    rw [hr]
    have hr2 : (c0 :: (cs0 ++ '/' :: (natDigits q.den ++ rest)))
        = natDigits q.num.natAbs ++ '/' :: (natDigits q.den ++ rest) := by
      rw [heq]
      rfl
    simp only [parseRat, if_neg hc0m, hr2, hp]
    rw [rat_pos_val q hq]

theorem goodName_parts (a : String) (h : goodName a = true) :
    a.data.isEmpty = false ∧ ∀ c ∈ a.data, isDelim c = false := by
  unfold goodName at h
  rw [Bool.and_eq_true] at h
  refine ⟨by simpa using h.1, fun c hc => ?_⟩
  have := List.all_eq_true.mp h.2 c hc
  simpa using this

theorem parseName_append (a : String) (hga : goodName a = true) (rest : List Char)
    (hrest : ∀ c, rest.head? = some c → isDelim c = true) :
    parseName (a.data ++ rest) = some (a, rest) := by
  obtain ⟨hne, hall⟩ := goodName_parts a hga
  have htw : (a.data ++ rest).takeWhile (fun c => !(isDelim c)) = a.data :=
    takeWhile_append_all _ _ _ (fun c hc => by rw [hall c hc]; rfl)
      (fun c hc => by rw [hrest c hc]; rfl)
  have hne2 : a.data.isEmpty = false := hne
  simp only [parseName, htw, hne2, Bool.false_eq_true, if_false, List.drop_left,
    Option.some.injEq]

theorem ratChars_class (q : ℚ) (c : Char) (hc : c ∈ ratChars q) :
    c.isDigit = true ∨ c = '-' ∨ c = '/' := by
  unfold ratChars at hc
  rcases List.mem_append.mp hc with h | h
  · rcases List.mem_append.mp h with h1 | h1
    · by_cases hq : q < 0
      · rw [if_pos hq] at h1
        rw [List.mem_singleton.mp h1]
        exact Or.inr (Or.inl rfl)
      · rw [if_neg hq] at h1
        exact absurd h1 (List.not_mem_nil c)
    · exact Or.inl (natDigits_all_digit _ c h1)
  · rcases List.mem_cons.mp h with rfl | h2
    · exact Or.inr (Or.inr rfl)
    · exact Or.inl (natDigits_all_digit _ c h2)

mutual
theorem renderChars_class : ∀ (t : PTree) (c : Char), c ∈ t.renderChars →
    (∃ nm ∈ t.leaves, c ∈ nm.data) ∨ c = '(' ∨ c = ')' ∨ c = ',' ∨ c = ':'
      ∨ c.isDigit = true ∨ c = '-' ∨ c = '/'
  | .leaf a, c, hc => by
    simp only [PTree.renderChars] at hc
    refine Or.inl ⟨a, ?_, hc⟩
    simp [PTree.leaves]
  | .internal f, c, hc => by
    simp only [PTree.renderChars] at hc
    rcases List.mem_cons.mp hc with rfl | h
    · exact Or.inr (Or.inl rfl)
    · rcases List.mem_append.mp h with h1 | h1
      · rcases renderEdges_class f c h1 with ⟨nm, hnm, hcn⟩ | htail
        · exact Or.inl ⟨nm, by simpa [PTree.leaves] using hnm, hcn⟩
        · exact Or.inr htail
      · rw [List.mem_singleton.mp h1]
        exact Or.inr (Or.inr (Or.inl rfl))

theorem renderEdges_class : ∀ (f : PForest) (c : Char), c ∈ f.renderEdges →
    (∃ nm ∈ f.leavesF, c ∈ nm.data) ∨ c = '(' ∨ c = ')' ∨ c = ',' ∨ c = ':'
      ∨ c.isDigit = true ∨ c = '-' ∨ c = '/'
  | .nil, c, hc => by simp [PForest.renderEdges] at hc
  | .cons t q .nil, c, hc => by
    simp only [PForest.renderEdges] at hc
    rcases List.mem_append.mp hc with h1 | h1
    · rcases renderChars_class t c h1 with ⟨nm, hnm, hcn⟩ | htail
      · exact Or.inl ⟨nm, by simp [PForest.leavesF, hnm], hcn⟩
      · exact Or.inr htail
    · rcases List.mem_cons.mp h1 with rfl | h2
      · exact Or.inr (Or.inr (Or.inr (Or.inr (Or.inl rfl))))
      · rcases ratChars_class q c h2 with hd | hd | hd
        · exact Or.inr (Or.inr (Or.inr (Or.inr (Or.inr (Or.inl hd)))))
        · exact Or.inr (Or.inr (Or.inr (Or.inr (Or.inr (Or.inr (Or.inl hd))))))
        · exact Or.inr (Or.inr (Or.inr (Or.inr (Or.inr (Or.inr (Or.inr hd))))))
  | .cons t q (.cons t2 q2 rest2), c, hc => by
    simp only [PForest.renderEdges] at hc
    rcases List.mem_append.mp hc with h1 | h1
    · rcases List.mem_append.mp h1 with h2 | h2
      · rcases renderChars_class t c h2 with ⟨nm, hnm, hcn⟩ | htail
        · exact Or.inl ⟨nm, by simp [PForest.leavesF, hnm], hcn⟩
        · exact Or.inr htail
      · rcases List.mem_cons.mp h2 with rfl | h3
        · exact Or.inr (Or.inr (Or.inr (Or.inr (Or.inl rfl))))
        · rcases ratChars_class q c h3 with hd | hd | hd
          · exact Or.inr (Or.inr (Or.inr (Or.inr (Or.inr (Or.inl hd)))))
          · exact Or.inr (Or.inr (Or.inr (Or.inr (Or.inr (Or.inr (Or.inl hd))))))
          · exact Or.inr (Or.inr (Or.inr (Or.inr (Or.inr (Or.inr (Or.inr hd))))))
    · rcases List.mem_cons.mp h1 with rfl | h4
      · exact Or.inr (Or.inr (Or.inr (Or.inl rfl)))
      · rcases renderEdges_class (.cons t2 q2 rest2) c h4 with ⟨nm, hnm, hcn⟩ | htail
        · refine Or.inl ⟨nm, ?_, hcn⟩
          simp only [PForest.leavesF, List.mem_append]
          simp only [PForest.leavesF, List.mem_append] at hnm
          exact Or.inr hnm
        · exact Or.inr htail
end

theorem size_pos (t : PTree) : 1 ≤ t.size := by
  cases t <;> simp [PTree.size]

mutual
theorem size_le_renderChars : ∀ t : PTree, t.goodT = true →
    t.size ≤ t.renderChars.length
  | .leaf a, hg => by
    obtain ⟨hne, _⟩ := goodName_parts a (by simpa [PTree.goodT] using hg)
    simp only [PTree.size, PTree.renderChars]
    have : a.data ≠ [] := by
      intro h
      rw [h] at hne
      exact absurd hne (by decide)
    have := List.length_pos.mpr this
    omega
  | .internal f, hg => by
    have hf := sizeF_le_renderEdges f (by simpa [PTree.goodT] using hg)
    simp only [PTree.size, PTree.renderChars, List.length_cons, List.length_append,
      List.length_singleton]
    omega

theorem sizeF_le_renderEdges : ∀ f : PForest, f.goodF = true →
    f.sizeF ≤ f.renderEdges.length
  | .nil, hg => by simp [PForest.goodF] at hg
  | .cons t q .nil, hg => by
    have ht := size_le_renderChars t (by simpa [PForest.goodF] using hg)
    simp only [PForest.sizeF, PForest.renderEdges, List.length_append,
      List.length_cons, PForest.sizeF]
    omega
  | .cons t q (.cons t2 q2 rest2), hg => by
    simp only [PForest.goodF, Bool.and_eq_true] at hg
    have ht := size_le_renderChars t hg.1
    have hf := sizeF_le_renderEdges (.cons t2 q2 rest2) hg.2
    simp only [PForest.sizeF, PForest.renderEdges, List.length_append,
      List.length_cons] at ht hf ⊢
    omega
end

theorem parse_render : ∀ fuel : Nat,
    (∀ t : PTree, t.goodT = true → t.size ≤ fuel →
      ∀ rest c, rest.head? = some c → isDelim c = true →
        parseSub fuel (t.renderChars ++ rest) = some (t, rest)) ∧
    (∀ f : PForest, f.goodF = true → f.sizeF ≤ fuel →
      ∀ rest, parseEdges fuel (f.renderEdges ++ (')' :: rest)) = some (f, rest)) := by
  intro fuel
  induction fuel with
  | zero =>
    constructor
    · intro t _ hs
      have := size_pos t
      exact ((by omega : False)).elim
    · intro f hg hs rest
      cases f with
      | nil => simp [PForest.goodF] at hg
      | cons t q rest' =>
        simp only [PForest.sizeF] at hs
        exact ((by omega : False)).elim
  | succ fuel ih =>
    obtain ⟨ihP, ihQ⟩ := ih
    constructor
    · intro t hg hs rest c hhead hdelim
      cases t with
      | leaf a =>
        have hga : goodName a = true := by simpa [PTree.goodT] using hg
        obtain ⟨hne, hall⟩ := goodName_parts a hga
        obtain ⟨c0, cs0, heq⟩ : ∃ c0 cs0, a.data = c0 :: cs0 := by
          cases h : a.data with
          | nil => rw [h] at hne; exact absurd hne (by decide)
          | cons c0 cs0 => exact ⟨c0, cs0, rfl⟩
        have hc0d : isDelim c0 = false := hall c0 (heq ▸ List.mem_cons_self c0 cs0)
        have hc0 : ¬ c0 = '(' := by
          intro h
          rw [h] at hc0d
          exact absurd hc0d (by decide)
        have hpn : parseName (a.data ++ rest) = some (a, rest) :=
          parseName_append a hga rest (fun c' hc' => by
            rw [hhead, Option.some.injEq] at hc'
            exact hc' ▸ hdelim)
        have hshape : (PTree.leaf a).renderChars ++ rest = c0 :: (cs0 ++ rest) := by
          simp only [PTree.renderChars, heq, List.cons_append]
        rw [hshape]
        simp only [parseSub]
        rw [if_neg hc0,
          show c0 :: (cs0 ++ rest) = a.data ++ rest by rw [heq]; rfl, hpn]
      | internal f =>
        have hgf : f.goodF = true := by simpa [PTree.goodT] using hg
        have hsf : f.sizeF ≤ fuel := by
          simp only [PTree.size] at hs
          omega
        have hshape : (PTree.internal f).renderChars ++ rest
            = '(' :: (f.renderEdges ++ (')' :: rest)) := by
          simp [PTree.renderChars]
        rw [hshape]
        simp only [parseSub, if_true]
        rw [ihQ f hgf hsf rest]
    · intro f hg hs rest
      cases f with
      | nil => simp [PForest.goodF] at hg
      | cons t q rest' =>
        cases rest' with
        | nil =>
          have hgt : t.goodT = true := by simpa [PForest.goodF] using hg
          have hst : t.size ≤ fuel := by
            simp only [PForest.sizeF] at hs
            omega
          have hsub := ihP t hgt hst (':' :: (ratChars q ++ (')' :: rest))) ':'
            rfl (by decide)
          have hrat := parseRat_append q (')' :: rest) (fun c' hc' => by
            simp only [List.head?_cons, Option.some.injEq] at hc'
            rw [← hc']
            rfl)
          have hshape : (PForest.cons t q .nil).renderEdges ++ (')' :: rest)
              = t.renderChars ++ (':' :: (ratChars q ++ (')' :: rest))) := by
            simp [PForest.renderEdges]
          rw [hshape]
          simp +decide [parseEdges, hsub, hrat]
        | cons t2 q2 rest2 =>
          have hgparts : t.goodT = true ∧ (PForest.cons t2 q2 rest2).goodF = true := by
            simpa [PForest.goodF, Bool.and_eq_true] using hg
          have hst : t.size ≤ fuel := by
            simp only [PForest.sizeF] at hs
            omega
          have hsf : (PForest.cons t2 q2 rest2).sizeF ≤ fuel := by
            simp only [PForest.sizeF] at hs ⊢
            omega
          have hsub := ihP t hgparts.1 hst
            (':' :: (ratChars q
              ++ (',' :: ((PForest.cons t2 q2 rest2).renderEdges ++ (')' :: rest)))))
            ':' rfl (by decide)
          have hrat := parseRat_append q
            (',' :: ((PForest.cons t2 q2 rest2).renderEdges ++ (')' :: rest)))
            (fun c' hc' => by
              simp only [List.head?_cons, Option.some.injEq] at hc'
              rw [← hc']
              rfl)
          have hrec := ihQ (PForest.cons t2 q2 rest2) hgparts.2 hsf rest
          have hshape :
              (PForest.cons t q (PForest.cons t2 q2 rest2)).renderEdges ++ (')' :: rest)
              = t.renderChars ++ (':' :: (ratChars q
                ++ (',' :: ((PForest.cons t2 q2 rest2).renderEdges ++ (')' :: rest))))) := by
            simp [PForest.renderEdges]
          rw [hshape]
          simp +decide [parseEdges, hsub, hrat, hrec]

theorem parse_toNewick (t : PTree) (hg : t.goodT = true) :
    parseNewick (toNewick t) = some t := by
  have h1 := size_le_renderChars t hg
  have h2 : (toNewick t).length = t.renderChars.length + 1 := by
    simp [toNewick, String.length]
  obtain ⟨P, _⟩ := parse_render (toNewick t).length
  have hp := P t hg (by omega) [';'] ';' rfl (by decide)
  have hdata : (toNewick t).data = t.renderChars ++ [';'] := rfl
  simp only [parseNewick, hdata, hp]
  rfl

theorem nj_good (names : List String) (d : Nat → Nat → ℚ) (h2 : 2 ≤ names.length)
    (hn : ∀ a ∈ names, goodName a = true) : (nj names d).goodT = true := by
  obtain ⟨x, y, hxy, _, _, _, _, hgood⟩ := nj_final_state names d h2
  obtain ⟨hgx, hgy⟩ := hgood hn
  rw [nj_eq_joinLast names d x y hxy]
  cases y with
  | internal f =>
    simp only [joinLast, PTree.goodT]
    exact goodF_snoc f x _ (by simpa [PTree.goodT] using hgy) hgx
  | leaf b =>
    cases x with
    | internal f =>
      simp only [joinLast, PTree.goodT]
      exact goodF_snoc f (PTree.leaf b) _ (by simpa [PTree.goodT] using hgx) hgy
    | leaf a =>
      simp only [PTree.goodT] at hgx hgy
      simp [joinLast, PTree.goodT, PForest.goodF, hgx, hgy]

theorem nj_leaves_perm (names : List String) (d : Nat → Nat → ℚ)
    (h2 : 2 ≤ names.length) : ((nj names d).leaves).Perm names := by
  by_cases h3 : 3 ≤ names.length
  · exact (nj_leaves_and_count names d h3).1
  · have hl : names.length = 2 := by omega
    obtain ⟨a, b, hab⟩ := List.length_eq_two.mp hl
    rw [(nj_two_taxa names d a b hab).2.1, hab]

theorem isDigit_not_ws (c : Char) (h : c.isDigit = true) : c.isWhitespace = false := by
  by_contra hw
  rw [Bool.not_eq_false] at hw
  simp only [Char.isWhitespace, Bool.or_eq_true, decide_eq_true_eq] at hw
  rcases hw with ((rfl | rfl) | rfl) | rfl <;> exact absurd h (by decide)

theorem toNewick_shape (t : PTree)
    (hdel : ∀ nm ∈ t.leaves, ∀ c ∈ nm.data, isDelim c = false)
    (hws : ∀ nm ∈ t.leaves, ∀ c ∈ nm.data, c.isWhitespace = false) :
    (toNewick t).data.getLast? = some ';' ∧
    (toNewick t).data.count ';' = 1 ∧
    (∀ c ∈ (toNewick t).data, c.isWhitespace = false) := by
  have hdata : (toNewick t).data = t.renderChars ++ [';'] := rfl
  have hnosemi : ';' ∉ t.renderChars := by
    intro hmem
    rcases renderChars_class t ';' hmem with ⟨nm, hnm, hcn⟩ | h | h | h | h | h | h | h
    · exact absurd (hdel nm hnm ';' hcn) (by decide)
    all_goals exact absurd h (by decide)
  refine ⟨?_, ?_, ?_⟩
  · rw [hdata]
    exact List.getLast?_concat _
  · rw [hdata, List.count_append, List.count_eq_zero.mpr hnosemi]
    rfl
  · rw [hdata]
    intro c hc
    rcases List.mem_append.mp hc with h | h
    · rcases renderChars_class t c h with ⟨nm, hnm, hcn⟩ | h1 | h1 | h1 | h1 | h1 | h1 | h1
      · exact hws nm hnm c hcn
      · rw [h1]; rfl
      · rw [h1]; rfl
      · rw [h1]; rfl
      · rw [h1]; rfl
      · exact isDigit_not_ws c h1
      · rw [h1]; rfl
      · rw [h1]; rfl
    · rw [List.mem_singleton.mp h]
      rfl

/-- C1: for every pair of distinct in-range indices `i ≠ j`, the distance
stored in the matrix by the loop of src/code.py lines 241-246 equals
`1 - (score / max(len(seq_i), len(seq_j)))`, where `score` is the global
alignment similarity score of the two residue strings (symmetric under the
fixed scoring scheme).  The value is exactly this quantity — it is not
clamped to 0 when negative (see the witness, where it is negative). -/
theorem claim_C1_distance_formula (records : List FastaRecord)
    (σ : String → String → ℚ) (i j : Nat)
    (hsym : ∀ a b, σ a b = σ b a)
    (hi : i < records.length) (hj : j < records.length) (hij : i ≠ j)
    (hli : 0 < (records.getD i default).seq.length)
    (hlj : 0 < (records.getD j default).seq.length) :
    fastaDistance records σ i j
      = 1 - σ (records.getD i default).seq (records.getD j default).seq
          / ((max (records.getD i default).seq.length
              (records.getD j default).seq.length : Nat) : ℚ) := by
  rw [fastaDistance_eq records σ i j, if_pos ⟨hij, hi, hj⟩]
  simp only [pairDistance]
  rcases Nat.lt_or_ge i j with h | h
  · rw [Nat.max_eq_right (le_of_lt h), Nat.min_eq_left (le_of_lt h),
      hsym, Nat.max_comm]
  · have hji : j < i := by omega
    rw [Nat.max_eq_left (le_of_lt hji), Nat.min_eq_right (le_of_lt hji)]

/-- C2: for inputs with at least 2 sequences, the matrix built by
src/code.py lines 237-246 is symmetric, has a zero diagonal, and its name
index list is the input record ids in input order (src/code.py line 237). -/
theorem claim_C2_matrix_invariants (records : List FastaRecord)
    (σ : String → String → ℚ) (h2 : 2 ≤ records.length) :
    (∀ i j, i < records.length → j < records.length →
      fastaDistance records σ i j = fastaDistance records σ j i) ∧
    (∀ i, i < records.length → fastaDistance records σ i i = 0) ∧
    (fastaNames records).length = records.length ∧
    (∀ i (hi : i < records.length),
      (fastaNames records).getD i "" = (records.getD i default).id) := by
  refine ⟨?_, ?_, ?_, ?_⟩
  · intro i j hi hj
    rw [fastaDistance_eq, fastaDistance_eq]
    by_cases hij : i = j
    · subst hij
      rfl
    · rw [if_pos ⟨hij, hi, hj⟩, if_pos ⟨fun h => hij h.symm, hj, hi⟩,
        Nat.max_comm, Nat.min_comm]
  · intro i hi
    rw [fastaDistance_eq]
    simp
  · simp [fastaNames]
  · intro i hi
    have hi2 : i < (records.map FastaRecord.id).length := by simpa
    unfold fastaNames
    rw [List.getD_eq_getElem _ _ hi2, List.getElem_map,
      List.getD_eq_getElem records default hi]

/-- C3: with fewer than 2 parsed sequences the pipeline stops at the
input-stage guard (src/code.py lines 229-231, spec:
`InsufficientInputError`) before any distance computation (0 alignment
calls) and produces no tree. -/
theorem claim_C3_insufficient_input (records : List FastaRecord)
    (align : String → String → Except PipeError ℚ)
    (h : records.length < 2) :
    construct_tree_from_fasta records align
      = (.error .InsufficientInputError, 0) := by
  unfold construct_tree_from_fasta
  rw [if_pos h]

/-- C4 (amended): a duplicate taxon name makes the build fail with
`DegenerateTreeError` (the duplicate-name rejection of the library
`DistanceMatrix` constructor at src/code.py line 248), but only AFTER the
entire pairwise distance loop has run: exactly `n*(n-1)/2` alignment calls
are completed before the failure, not zero. -/
theorem claim_C4_duplicates_after_loop (records : List FastaRecord)
    (σ : String → String → ℚ) (h2 : 2 ≤ records.length)
    (hdup : ¬ (fastaNames records).Nodup) :
    construct_tree_from_fasta records (okAlign σ)
      = (.error .DegenerateTreeError,
          records.length * (records.length - 1) / 2) := by
  have hm := pairFold_ok records σ records.length
  unfold construct_tree_from_fasta
  rw [if_neg (by omega)]
  unfold distanceFold
  rw [hm]
  simp only [hdup, if_false]

/-- C5 (amended): in every merge step of the joining loop the two branch
lengths of the new internal node are clamped to be nonnegative, so every
branch length present in the active trees of the merge loop is
nonnegative; but the final joining edge (spec section 4.2 step 3) is NOT
clamped, so a branch of the produced tree is only guaranteed nonnegative
or equal to that final joining distance (which the counterexample shows
can be negative). -/
theorem claim_C5_merge_clamping (names : List String) (d : Nat → Nat → ℚ)
    (h2 : 2 ≤ names.length) :
    (∀ t ∈ (njLoop names.length ⟨names.map PTree.leaf, d⟩).nodes,
      ∀ q ∈ t.branches, 0 ≤ q) ∧
    (∀ q ∈ (nj names d).branches,
      0 ≤ q ∨ q = (njLoop names.length ⟨names.map PTree.leaf, d⟩).dist 0 1) :=
  nj_branch_clamping names d h2

/-- C6: for at least 3 taxa, the neighbor-joining tree has exactly the
input names as leaves (one per input name) and exactly `n - 2` internal
nodes. -/
theorem claim_C6_leaves_and_internal (names : List String) (d : Nat → Nat → ℚ)
    (h3 : 3 ≤ names.length) :
    ((nj names d).leaves).Perm names ∧
    (nj names d).internalCount = names.length - 2 :=
  nj_leaves_and_count names d h3

/-- C7: for exactly two taxa, the builder produces the two leaves joined by
a single edge of length equal to their pairwise matrix distance `d 0 1`
(rooted representation: a degree-2 root subdividing that edge into the
lengths `d 0 1` and `0`, so the branch lengths sum to `d 0 1`). -/
theorem claim_C7_two_taxa (names : List String) (d : Nat → Nat → ℚ)
    (a b : String) (hn : names = [a, b]) :
    nj names d = .internal (.cons (.leaf a) (d 0 1) (.cons (.leaf b) 0 .nil)) ∧
    (nj names d).leaves = [a, b] ∧
    (nj names d).internalCount = 1 ∧
    (nj names d).branches.sum = d 0 1 :=
  nj_two_taxa names d a b hn

/-- C8: the emitted Newick string of the built tree is terminated by `;`,
contains exactly one `;`, and contains no whitespace (given that the input
names contain no delimiter and no whitespace characters).  By definition
of the serializer (`PTree.renderChars`, modelled from spec section 4.2),
each internal node is rendered as `(child1:len1,child2:len2,...)` with no
name attached and each leaf as `name` with its `:len` emitted by the
parent edge. -/
theorem claim_C8_newick_shape (names : List String) (d : Nat → Nat → ℚ)
    (h2 : 2 ≤ names.length)
    (hdel : ∀ nm ∈ names, ∀ c ∈ nm.data, isDelim c = false)
    (hws : ∀ nm ∈ names, ∀ c ∈ nm.data, c.isWhitespace = false) :
    (toNewick (nj names d)).data.getLast? = some ';' ∧
    (toNewick (nj names d)).data.count ';' = 1 ∧
    (∀ c ∈ (toNewick (nj names d)).data, c.isWhitespace = false) := by
  have hperm := nj_leaves_perm names d h2
  refine toNewick_shape (nj names d) ?_ ?_
  · intro nm hnm c hc
    exact hdel nm (hperm.subset hnm) c hc
  · intro nm hnm c hc
    exact hws nm (hperm.subset hnm) c hc

/-- C9: parsing the emitted Newick string of the built tree recovers the
tree exactly — same leaf set, same topology, and the exact branch lengths
(the rational model is exact, which subsumes the 1e-9 tolerance). -/
theorem claim_C9_roundtrip (names : List String) (d : Nat → Nat → ℚ)
    (h2 : 2 ≤ names.length) (hn : ∀ a ∈ names, goodName a = true) :
    parseNewick (toNewick (nj names d)) = some (nj names d) :=
  parse_toNewick (nj names d) (nj_good names d h2 hn)

/-- C10: the pipeline is all-or-nothing at its public boundary: for every
input, either some stage fails and the caller observes exactly the caught
error message (src/code.py lines 262-263) with no Newick artifact, or
every stage succeeds and the caller observes the complete Newick string of
the fully built tree (src/code.py lines 253-260).  No partially-built
output exists. -/
theorem claim_C10_all_or_nothing (records : List FastaRecord)
    (align : String → String → Except PipeError ℚ) :
    (∃ e, (construct_tree_from_fasta records align).1 = .error e ∧
      uiRun records align = .errorMessage e) ∨
    (∃ m c, distanceFold records align = (.ok m, c) ∧
      (construct_tree_from_fasta records align).1
        = .ok (toNewick (nj (fastaNames records) m)) ∧
      uiRun records align = .shown (toNewick (nj (fastaNames records) m))) := by
  by_cases hlen : records.length < 2
  · exact Or.inl ⟨.InsufficientInputError,
      by simp [construct_tree_from_fasta, hlen],
      by simp [uiRun, construct_tree_from_fasta, hlen]⟩
  · rcases hdf : distanceFold records align with ⟨res, c⟩
    cases res with
    | error e =>
      exact Or.inl ⟨e,
        by simp [construct_tree_from_fasta, hlen, hdf],
        by simp [uiRun, construct_tree_from_fasta, hlen, hdf]⟩
    | ok m =>
      by_cases hnd : (fastaNames records).Nodup
      · by_cases hlen2 : (fastaNames records).length < 2
        · exact Or.inl ⟨.InsufficientTaxaError,
            by simp [construct_tree_from_fasta, hlen, hdf, hnd, hlen2],
            by simp [uiRun, construct_tree_from_fasta, hlen, hdf, hnd, hlen2]⟩
        · exact Or.inr ⟨m, c, rfl,
            by simp [construct_tree_from_fasta, hlen, hdf, hnd, hlen2],
            by simp [uiRun, construct_tree_from_fasta, hlen, hdf, hnd, hlen2]⟩
      · exact Or.inl ⟨.DegenerateTreeError,
          by simp [construct_tree_from_fasta, hlen, hdf, hnd],
          by simp [uiRun, construct_tree_from_fasta, hlen, hdf, hnd]⟩

/-- Witness for C1 at a concrete input: with sequences of lengths 4 and 2
and a (symmetric) alignment score of 6, the stored distance is exactly
`1 - 6/4 = -1/2`: the formula holds and the negative value is not
clamped. -/
theorem claim_C1_witness :
    fastaDistance [⟨"A", "ACGT"⟩, ⟨"B", "AC"⟩] (fun _ _ => 6) 0 1 = -(1 / 2) ∧
    fastaDistance [⟨"A", "ACGT"⟩, ⟨"B", "AC"⟩] (fun _ _ => 6) 0 1 < 0 := by
  have h := claim_C1_distance_formula [⟨"A", "ACGT"⟩, ⟨"B", "AC"⟩]
    (fun _ _ => 6) 0 1 (fun _ _ => rfl) (by norm_num) (by norm_num) (by norm_num)
    (by decide) (by decide)
  have hlen : (max (([⟨"A", "ACGT"⟩, ⟨"B", "AC"⟩] :
      List FastaRecord).getD 0 default).seq.length
      (([⟨"A", "ACGT"⟩, ⟨"B", "AC"⟩] : List FastaRecord).getD 1 default).seq.length)
      = 4 := by decide
  rw [hlen] at h
  constructor
  · rw [h]
    norm_num
  · rw [h]
    norm_num

/-- Witness for C2 at a concrete two-record input. -/
theorem claim_C2_witness :
    fastaDistance [⟨"A", "ACGT"⟩, ⟨"B", "AC"⟩] (fun _ _ => 1) 0 1
      = fastaDistance [⟨"A", "ACGT"⟩, ⟨"B", "AC"⟩] (fun _ _ => 1) 1 0 ∧
    fastaDistance [⟨"A", "ACGT"⟩, ⟨"B", "AC"⟩] (fun _ _ => 1) 0 0 = 0 ∧
    (fastaNames [⟨"A", "ACGT"⟩, ⟨"B", "AC"⟩]).length = 2 ∧
    (fastaNames [⟨"A", "ACGT"⟩, ⟨"B", "AC"⟩]).getD 0 "" = "A" := by
  have h := claim_C2_matrix_invariants [⟨"A", "ACGT"⟩, ⟨"B", "AC"⟩]
    (fun _ _ => 1) (by norm_num)
  exact ⟨h.1 0 1 (by norm_num) (by norm_num), h.2.1 0 (by norm_num),
    h.2.2.1, h.2.2.2 0 (by norm_num)⟩

/-- Witness for C3: the empty input fails at the input guard with no
alignment calls. -/
theorem claim_C3_witness :
    construct_tree_from_fasta [] (okAlign fun _ _ => 0)
      = (.error .InsufficientInputError, 0) :=
  claim_C3_insufficient_input [] (okAlign fun _ _ => 0) (by decide)

/-- Witness for C4 (amended): two records both named `A` fail with
`DegenerateTreeError` after exactly `2*1/2 = 1` completed alignment
call. -/
theorem claim_C4_witness :
    construct_tree_from_fasta [⟨"A", "AAC"⟩, ⟨"A", "TGG"⟩] (okAlign fun _ _ => 0)
      = (.error .DegenerateTreeError, 1) :=
  claim_C4_duplicates_after_loop [⟨"A", "AAC"⟩, ⟨"A", "TGG"⟩] (fun _ _ => 0)
    (by norm_num) (by decide)

/-- Counterexample for C4 as stated: on the duplicate-name input the
failure is indeed `DegenerateTreeError`, but one alignment call (the whole
pairwise loop for n = 2) has already been completed when it occurs — not
zero, contradicting "before any distance computation runs". -/
theorem claim_C4_counterexample :
    (construct_tree_from_fasta [⟨"A", "AAC"⟩, ⟨"A", "TGG"⟩]
      (okAlign fun _ _ => 0)).1 = .error .DegenerateTreeError ∧
    (construct_tree_from_fasta [⟨"A", "AAC"⟩, ⟨"A", "TGG"⟩]
      (okAlign fun _ _ => 0)).2 = 1 ∧ (1 : Nat) ≠ 0 := by
  have hm := pairFold_ok [⟨"A", "AAC"⟩, ⟨"A", "TGG"⟩] (fun _ _ => 0) 2
  have h : construct_tree_from_fasta [⟨"A", "AAC"⟩, ⟨"A", "TGG"⟩]
      (okAlign fun _ _ => 0) = (.error .DegenerateTreeError, 1) := by
    unfold construct_tree_from_fasta distanceFold
    rw [show ([⟨"A", "AAC"⟩, ⟨"A", "TGG"⟩] : List FastaRecord).length = 2 from rfl,
      hm]
    simp +decide [fastaNames]
  exact ⟨by rw [h], by rw [h], by decide⟩

/-- Witness for C5 (amended) at a concrete two-taxon input. -/
theorem claim_C5_witness :
    (∀ t ∈ (njLoop (["x", "y"].length)
        ⟨["x", "y"].map PTree.leaf, fun _ _ => 0⟩).nodes,
      ∀ q ∈ t.branches, 0 ≤ q) ∧
    (∀ q ∈ (nj ["x", "y"] fun _ _ => 0).branches,
      0 ≤ q ∨ q = (njLoop (["x", "y"].length)
        ⟨["x", "y"].map PTree.leaf, fun _ _ => 0⟩).dist 0 1) :=
  claim_C5_merge_clamping ["x", "y"] (fun _ _ => 0) (by norm_num)

/-- Witness for C6 at three taxa. -/
theorem claim_C6_witness :
    ((nj ["a", "b", "c"] fun _ _ => 0).leaves).Perm ["a", "b", "c"] ∧
    (nj ["a", "b", "c"] fun _ _ => 0).internalCount = 1 :=
  claim_C6_leaves_and_internal ["a", "b", "c"] (fun _ _ => 0) (by norm_num)

/-- Witness for C7 at two taxa with pairwise distance 3. -/
theorem claim_C7_witness :
    nj ["a", "b"] (fun _ _ => (3 : ℚ))
      = .internal (.cons (.leaf "a") 3 (.cons (.leaf "b") 0 .nil)) ∧
    (nj ["a", "b"] fun _ _ => (3 : ℚ)).leaves = ["a", "b"] ∧
    (nj ["a", "b"] fun _ _ => (3 : ℚ)).internalCount = 1 ∧
    (nj ["a", "b"] fun _ _ => (3 : ℚ)).branches.sum = 3 :=
  claim_C7_two_taxa ["a", "b"] (fun _ _ => 3) "a" "b" rfl

/-- Witness for C8 at a concrete two-taxon input. -/
theorem claim_C8_witness :
    (toNewick (nj ["a", "b"] fun _ _ => 0)).data.getLast? = some ';' ∧
    (toNewick (nj ["a", "b"] fun _ _ => 0)).data.count ';' = 1 ∧
    (∀ c ∈ (toNewick (nj ["a", "b"] fun _ _ => 0)).data,
      c.isWhitespace = false) :=
  claim_C8_newick_shape ["a", "b"] (fun _ _ => 0) (by norm_num) (by decide)
    (by decide)

/-- Witness for C9 at a concrete two-taxon input. -/
theorem claim_C9_witness :
    parseNewick (toNewick (nj ["a", "b"] fun _ _ => 0))
      = some (nj ["a", "b"] fun _ _ => 0) :=
  claim_C9_roundtrip ["a", "b"] (fun _ _ => 0) (by norm_num) (by decide)

theorem cx_step_nodes :
    (njStep ⟨[PTree.leaf "a", PTree.leaf "b", PTree.leaf "c"], dCx⟩).nodes
      = [PTree.leaf "c", PTree.internal (.cons (.leaf "a") 5
          (.cons (.leaf "b") 5 .nil))] := by
  norm_num [njStep, lexPairs, qCrit, rowSum, selectPair, dCx,
    List.range_succ, max_def]

theorem cx_step_dist :
    (njStep ⟨[PTree.leaf "a", PTree.leaf "b", PTree.leaf "c"], dCx⟩).dist 0 1
      = -4 := by
  norm_num [njStep, lexPairs, qCrit, rowSum, selectPair, dCx,
    List.range_succ, max_def]

theorem cx_tree :
    nj ["a", "b", "c"] dCx
      = .internal (.cons (.leaf "a") 5 (.cons (.leaf "b") 5
          (.cons (.leaf "c") (-4) .nil))) := by
  have hxy : (njLoop (["a", "b", "c"].length)
      ⟨["a", "b", "c"].map PTree.leaf, dCx⟩).nodes
      = [PTree.leaf "c", PTree.internal (.cons (.leaf "a") 5
          (.cons (.leaf "b") 5 .nil))] := by
    rw [show (["a", "b", "c"] : List String).length = 2 + 1 from rfl, njLoop,
      if_neg (by norm_num), njLoop_small 2 _ (by simp [cx_step_nodes])]
    exact cx_step_nodes
  have hdist : (njLoop (["a", "b", "c"].length)
      ⟨["a", "b", "c"].map PTree.leaf, dCx⟩).dist 0 1 = -4 := by
    rw [show (["a", "b", "c"] : List String).length = 2 + 1 from rfl, njLoop,
      if_neg (by norm_num), njLoop_small 2 _ (by simp [cx_step_nodes])]
    exact cx_step_dist
  rw [nj_eq_joinLast ["a", "b", "c"] dCx _ _ hxy, hdist]
  simp [joinLast, PForest.snoc]

/-- Counterexample for C5 as stated: on the valid three-taxon matrix `dCx`
the produced tree contains the branch length `-4 < 0` (the final joining
edge, which the algorithm does not clamp), so not every branch length in
the produced tree is nonnegative. -/
theorem claim_C5_counterexample :
    ¬ (∀ q ∈ (nj ["a", "b", "c"] dCx).branches, 0 ≤ q) := by
  intro hall
  have hm : (-4 : ℚ) ∈ (nj ["a", "b", "c"] dCx).branches := by
    rw [cx_tree]
    simp [PTree.branches, PForest.branchesF]
  have := hall (-4) hm
  norm_num at this
